import Mathlib

/-! Verification of the pure dashboard/blog core of the PradoWrites repository
(`src/src/App.jsx`; the `src/unnamed/part_001`, `part_002` variants contain the
same definitions verbatim).

The six specified core functions are shallowly embedded here:
  * `searchPosts`        — text search filter over posts,
  * `renderMarkdown`     — pattern-substitution markdown renderer,
  * `mergeSeries`        — two-pointer time-series merger,
  * `compute10DayTicks`  — 10-day axis tick generator,
  * `computeMvrvDomain`  — padded min/max domain calculator,
  * `buildAlerts`        — threshold alert rule engine.

JavaScript numbers are modelled as exact rationals (`ℚ`) for metric values and
as integers (`ℤ`) for epoch-millisecond timestamps; JavaScript's `%` operator
on integers (remainder with the sign of the dividend) is modelled by
`Int.tmod`.  Fields that may be `undefined`/non-numeric in the source are
modelled with `Option`.
-/

/-- A point of the price series (`{ t, price }`), as produced by
`generateMockPriceSeries` / the price-history fetcher. -/
structure PricePoint where
  t : Int
  price : ℚ
deriving DecidableEq

/-- A point of the MVRV series (`{ t, mvrv }`). -/
structure MvrvPoint where
  t : Int
  mvrv : ℚ
deriving DecidableEq

/-- A point of the merged series (`{ t, price, mvrv }`); `none` models the
`undefined` fields pushed by `mergeSeries`. -/
structure MergedPoint where
  t : Int
  price : Option ℚ
  mvrv : Option ℚ
deriving DecidableEq

/-- Function `mergeSeries(priceArr, mvrvArr)` from `App.jsx` (lines 859–889): a
two-pointer walk over the two series.  While both heads exist, heads within
the 12-hour window are merged into one point (carrying the price head's
timestamp) and both pointers advance; otherwise the strictly earlier head is
emitted alone; once one side is exhausted the other is drained. -/
def mergeSeries : List PricePoint → List MvrvPoint → List MergedPoint
  | [], [] => []
  | p :: ps, [] => ⟨p.t, some p.price, none⟩ :: mergeSeries ps []
  | [], m :: ms => ⟨m.t, none, some m.mvrv⟩ :: mergeSeries [] ms
  | p :: ps, m :: ms =>
    if |p.t - m.t| ≤ 12 * 60 * 60 * 1000 then
      ⟨p.t, some p.price, some m.mvrv⟩ :: mergeSeries ps ms
    else if p.t < m.t then
      ⟨p.t, some p.price, none⟩ :: mergeSeries ps (m :: ms)
    else
      ⟨m.t, none, some m.mvrv⟩ :: mergeSeries (p :: ps) ms
termination_by pa ma => pa.length + ma.length

/-- An element of the array handed to `computeMvrvDomain`: only its `mvrv`
field is inspected; `none` models a non-numeric (`typeof p.mvrv !== 'number'`)
field. -/
structure DomainPoint where
  mvrv : Option ℚ
deriving DecidableEq

/-- The `for (const p of arr)` min/max loop of `computeMvrvDomain`, with the
loop variables `mn`/`mx` threaded explicitly; `none` models the
`Infinity`/`-Infinity` sentinels (never updated iff no numeric value seen). -/
def scanMinMax : List DomainPoint → Option ℚ → Option ℚ → Option ℚ × Option ℚ
  | [], mn, mx => (mn, mx)
  | p :: rest, mn, mx =>
    match p.mvrv with
    | none => scanMinMax rest mn mx
    | some x =>
      scanMinMax rest
        (some (match mn with | none => x | some m => if x < m then x else m))
        (some (match mx with | none => x | some m => if x > m then x else m))

/-- Function `computeMvrvDomain(arr)` from `App.jsx` (lines 517–529): default `[0, 4]`
for an empty array or no numeric value, otherwise pad the raw min/max by
`max(0.05, (mx - mn) * 0.1)`, round outward to one decimal and clamp the lower
bound at `0`. -/
def computeMvrvDomain (arr : List DomainPoint) : ℚ × ℚ :=
  if arr = [] then (0, 4)
  else
    match scanMinMax arr none none with
    | (some mn, some mx) =>
      let pad := max 0.05 ((mx - mn) * 0.1)
      (max 0 ((⌊(mn - pad) * 10⌋ : ℚ) / 10), (⌈(mx + pad) * 10⌉ : ℚ) / 10)
    | _ => (0, 4)

/-- Alert severity level (the source uses the strings `'HIGH'`/`'MEDIUM'`). -/
inductive AlertLevel where
  | MEDIUM
  | HIGH
deriving DecidableEq

/-- An alert `{ level, title, desc }`.  The `desc` field is presentation text
built with floating-point `toFixed(2)` formatting, inspected by no claim and
not modelled. -/
structure Alert where
  level : AlertLevel
  title : String
deriving DecidableEq

/-- The alert-relevant part of the dashboard state handed to `buildAlerts`:
`state.mvrv.current` and `state.fngValue`, each `none` unless
`typeof ... === 'number'`. -/
structure DashState where
  mvrvCurrent : Option ℚ
  fngValue : Option ℚ

/-- Function `buildAlerts(state)` from `App.jsx` (lines 531–541): an MVRV-tier alert
(HIGH at ≥ 3.0, else MEDIUM at ≥ 2.5) followed by an independent
Extreme-Greed alert at sentiment ≥ 70. -/
def buildAlerts (state : DashState) : List Alert :=
  (match state.mvrvCurrent with
    | some mv =>
      if mv ≥ 3.0 then [⟨.HIGH, "MVRV Overbought"⟩]
      else if mv ≥ 2.5 then [⟨.MEDIUM, "MVRV Elevated"⟩]
      else []
    | none => []) ++
  (match state.fngValue with
    | some fg => if fg ≥ 70 then [⟨.MEDIUM, "Extreme Greed"⟩] else []
    | none => [])

/-- Prefix test on character lists, used to model JavaScript's
`String.prototype.includes`. -/
def isPrefixL : List Char → List Char → Bool
  | [], _ => true
  | _ :: _, [] => false
  | a :: as, b :: bs => a = b && isPrefixL as bs

/-- Substring test `containsSub hay needle`: does `needle` occur contiguously in `hay`?
Models `hay.includes(needle)` (substring containment; the empty needle always
matches). -/
def containsSub : List Char → List Char → Bool
  | _, [] => true
  | [], _ :: _ => false
  | c :: rest, n :: ns => isPrefixL (n :: ns) (c :: rest) || containsSub rest (n :: ns)

/-- String version of `s.includes(sub)`. -/
def strIncludes (s sub : String) : Bool := containsSub s.data sub.data

/-- Model of `s.toLowerCase()`: character-wise lowering (ASCII model of the JavaScript
behaviour). -/
def strToLower (s : String) : String := String.mk (s.data.map Char.toLower)

/-- A blog `Post` record.  `excerpt` is `none` when the field is `undefined`
(the source guards it with `p.excerpt || ""`); `tags` is `none` when the field
is not an array (`Array.isArray(p.tags)` guard). -/
structure Post where
  slug : String
  title : String
  excerpt : Option String
  tags : Option (List String)
deriving DecidableEq

/-- The post-body predicate inside `searchPosts`'s `filter` callback, with
`query` the already-lowercased query string and `contentMap` the
slug-to-loaded-body map (`none` models an absent entry). -/
def matchesPost (query : String) (contentMap : String → Option String) (p : Post) : Bool :=
  let inTitle := strIncludes (strToLower p.title) query
  let inExcerpt := strIncludes (strToLower (p.excerpt.getD "")) query
  let inTags :=
    match p.tags with
    | some ts => ts.any (fun t => strIncludes (strToLower t) query)
    | none => false
  let content := (contentMap p.slug).getD ""
  let inContent := strIncludes (strToLower content) query
  inTitle || inExcerpt || inTags || inContent

/-- Function `searchPosts(posts, q, contentMap)` from `App.jsx` (lines 53–64): the
empty query (the only falsy string) returns the posts unchanged, otherwise
filter by lowercased substring match on title, excerpt, tags or loaded
content. -/
def searchPosts (posts : List Post) (q : String) (contentMap : String → Option String) :
    List Post :=
  if q = "" then posts
  else posts.filter (matchesPost (strToLower q) contentMap)

/-- Constant `24 * 60 * 60 * 1000`, the `oneDay` constant of `compute10DayTicks`. -/
def oneDayMs : Int := 24 * 60 * 60 * 1000

/-- Constant `10 * oneDay`, the `step` constant of `compute10DayTicks`. -/
def tickStep : Int := 10 * oneDayMs

/-- The tick-collecting loop `for (let t = alignedStart; t <= end + 1; t += step)`
of `compute10DayTicks`. -/
def ticksFrom (t lastT : Int) : List Int :=
  if t ≤ lastT + 1 then t :: ticksFrom (t + tickStep) lastT else []
termination_by (lastT + 2 - t).toNat
decreasing_by simp [tickStep, oneDayMs]; omega

/-- Function `compute10DayTicks(series)` from `App.jsx` (lines 891–901): align the
first timestamp with JavaScript's `%` (remainder with the dividend's sign,
i.e. `Int.tmod`), then emit ticks at a 10-day stride while `t ≤ end + 1`. -/
def compute10DayTicks (series : List PricePoint) : List Int :=
  match series with
  | [] => []
  | s :: rest =>
    let start := s.t
    let lastT := ((s :: rest).getLast (List.cons_ne_nil s rest)).t
    let alignedStart := start - Int.tmod start oneDayMs
    ticksFrom alignedStart lastT

/-! Markdown renderer section.

The `Markdown` component (`App.jsx` lines 71–98) builds its HTML by a fixed
chain of `String.replace` calls.  Each global regex substitution is modelled
as a character-list scan; the scans consume at least one character per step,
so running them with the input length as fuel realises the full substitution.
A `.*?` (lazy, no-newline) group is modelled by scanning to the earliest
closing delimiter before a newline. -/

/-- Split at newline characters (the line structure seen by the `m`-flagged
`^...$` patterns). -/
def splitLines : List Char → List (List Char)
  | [] => [[]]
  | '\n' :: rest => [] :: splitLines rest
  | c :: rest =>
    match splitLines rest with
    | [] => [[c]]
    | l :: ls => (c :: l) :: ls

/-- Rejoin lines with newlines (inverse of `splitLines`). -/
def joinLines : List (List Char) → List Char
  | [] => []
  | [l] => l
  | l :: ls => l ++ '\n' :: joinLines ls

/-- One line-anchored substitution `^PRE (.*$)` → `OPEN$1CLOSE`. -/
def renderLine (pre openT closeT : String) (line : List Char) : List Char :=
  if isPrefixL pre.data line then openT.data ++ line.drop pre.data.length ++ closeT.data
  else line

/-- Apply a per-line rewrite to every line. -/
def linePass (f : List Char → List Char) (cs : List Char) : List Char :=
  joinLines ((splitLines cs).map f)

/-- Earliest `**` before a newline: characters before it, and those after. -/
def scanClose2Star : List Char → Option (List Char × List Char)
  | '*' :: '*' :: rest => some ([], rest)
  | '\n' :: _ => none
  | [] => none
  | c :: rest => (scanClose2Star rest).map (fun p => (c :: p.1, p.2))

/-- Rewrite `\*\*(.*?)\*\*` → `<strong>$1</strong>`, global. -/
def boldPass : Nat → List Char → List Char
  | 0, cs => cs
  | _ + 1, [] => []
  | fuel + 1, '*' :: '*' :: rest =>
    match scanClose2Star rest with
    | some (inner, rest') =>
      "<strong>".data ++ inner ++ "</strong>".data ++ boldPass fuel rest'
    | none => '*' :: '*' :: boldPass fuel rest
  | fuel + 1, c :: rest => c :: boldPass fuel rest

/-- Earliest `*` before a newline. -/
def scanClose1Star : List Char → Option (List Char × List Char)
  | '*' :: rest => some ([], rest)
  | '\n' :: _ => none
  | [] => none
  | c :: rest => (scanClose1Star rest).map (fun p => (c :: p.1, p.2))

/-- Rewrite `\*(.*?)\*` → `<em>$1</em>`, global (runs after `boldPass`). -/
def italicPass : Nat → List Char → List Char
  | 0, cs => cs
  | _ + 1, [] => []
  | fuel + 1, '*' :: rest =>
    match scanClose1Star rest with
    | some (inner, rest') => "<em>".data ++ inner ++ "</em>".data ++ italicPass fuel rest'
    | none => '*' :: italicPass fuel rest
  | fuel + 1, c :: rest => c :: italicPass fuel rest

/-- The backtick character (written via its code point to keep it out of the
source text). -/
def btickChar : Char := Char.ofNat 96

/-- Earliest backtick (newlines allowed: the pattern uses a negated class,
not a dot). -/
def scanCloseBtick : List Char → Option (List Char × List Char)
  | [] => none
  | c :: rest =>
    if c = btickChar then some ([], rest)
    else (scanCloseBtick rest).map (fun p => (c :: p.1, p.2))

/-- Inline code spans: backtick-delimited, non-empty body. -/
def codePass : Nat → List Char → List Char
  | 0, cs => cs
  | _ + 1, [] => []
  | fuel + 1, c :: rest =>
    if c = btickChar then
      match scanCloseBtick rest with
      | some (inner, rest') =>
        if inner = [] then c :: codePass fuel rest
        else
          "<code class=\"px-1 py-0.5 text-sm rounded bg-neutral-800/40\">".data ++ inner ++
            "</code>".data ++ codePass fuel rest'
      | none => c :: codePass fuel rest
    else c :: codePass fuel rest

/-- Rewrite `\n- (.*)` → a one-item unordered list (each matching line becomes its own
list container). -/
def listPass : Nat → List Char → List Char
  | 0, cs => cs
  | _ + 1, [] => []
  | fuel + 1, '\n' :: '-' :: ' ' :: rest =>
    "<ul class=\"list-disc ml-6 my-2\"><li>".data ++ rest.takeWhile (fun c => c ≠ '\n') ++
      "</li></ul>".data ++ listPass fuel (rest.dropWhile (fun c => c ≠ '\n'))
  | fuel + 1, c :: rest => c :: listPass fuel rest

/-- Rewrite `\n\n` → `<br/><br/>`, global, non-overlapping. -/
def breakPass : Nat → List Char → List Char
  | 0, cs => cs
  | _ + 1, [] => []
  | fuel + 1, '\n' :: '\n' :: rest => "<br/><br/>".data ++ breakPass fuel rest
  | fuel + 1, c :: rest => c :: breakPass fuel rest

/-- Earliest `](` before a newline (the `\]\(` separator of the link
pattern). -/
def scanCloseLink : List Char → Option (List Char × List Char)
  | ']' :: '(' :: rest => some ([], rest)
  | '\n' :: _ => none
  | [] => none
  | c :: rest => (scanCloseLink rest).map (fun p => (c :: p.1, p.2))

/-- Earliest `)` before a newline. -/
def scanCloseParen : List Char → Option (List Char × List Char)
  | ')' :: rest => some ([], rest)
  | '\n' :: _ => none
  | [] => none
  | c :: rest => (scanCloseParen rest).map (fun p => (c :: p.1, p.2))

/-- Rewrite `\[(.*?)\]\((.*?)\)` → an external link. -/
def linkPass : Nat → List Char → List Char
  | 0, cs => cs
  | _ + 1, [] => []
  | fuel + 1, '[' :: rest =>
    (match scanCloseLink rest with
      | some (label, rest1) =>
        match scanCloseParen rest1 with
        | some (url, rest2) =>
          "<a class=\"underline hover:no-underline\" href=\"".data ++ url ++
            "\" target=\"_blank\" rel=\"noreferrer\">".data ++ label ++ "</a>".data ++
            linkPass fuel rest2
        | none => '[' :: linkPass fuel rest
      | none => '[' :: linkPass fuel rest)
  | fuel + 1, c :: rest => c :: linkPass fuel rest

/-- The full `Markdown` rewrite chain of `App.jsx` (lines 71–98), applied in
the source order: h3, h2, h1, blockquote, bold, italic, code, list,
paragraph break, link. -/
def renderMarkdown (text : String) : String :=
  let h := text.data
  let h := linePass (renderLine "### " "<h3 class=\"text-lg font-semibold mt-6 mb-2\">" "</h3>") h
  let h := linePass (renderLine "## " "<h2 class=\"text-xl font-semibold mt-8 mb-3\">" "</h2>") h
  let h := linePass (renderLine "# " "<h1 class=\"text-2xl font-bold mt-8 mb-4\">" "</h1>") h
  let h := linePass
    (renderLine "> " "<blockquote class=\"border-l pl-4 italic opacity-80 my-4\">" "</blockquote>") h
  let h := boldPass h.length h
  let h := italicPass h.length h
  let h := codePass h.length h
  let h := listPass h.length h
  let h := breakPass h.length h
  let h := linkPass h.length h
  String.mk h

/-! Time-series merger: step equations. -/

theorem mergeSeries_nil_nil : mergeSeries [] [] = [] := by
  simp [mergeSeries]

theorem mergeSeries_cons_nil (p : PricePoint) (ps : List PricePoint) :
    mergeSeries (p :: ps) [] = ⟨p.t, some p.price, none⟩ :: mergeSeries ps [] := by
  simp [mergeSeries]

theorem mergeSeries_nil_cons (m : MvrvPoint) (ms : List MvrvPoint) :
    mergeSeries [] (m :: ms) = ⟨m.t, none, some m.mvrv⟩ :: mergeSeries [] ms := by
  simp [mergeSeries]

theorem mergeSeries_cons_within (p : PricePoint) (ps : List PricePoint)
    (m : MvrvPoint) (ms : List MvrvPoint) (h : |p.t - m.t| ≤ 12 * 60 * 60 * 1000) :
    mergeSeries (p :: ps) (m :: ms) = ⟨p.t, some p.price, some m.mvrv⟩ :: mergeSeries ps ms := by
  simp only [mergeSeries]
  rw [if_pos h]

theorem mergeSeries_cons_priceEarlier (p : PricePoint) (ps : List PricePoint)
    (m : MvrvPoint) (ms : List MvrvPoint) (h1 : ¬ |p.t - m.t| ≤ 12 * 60 * 60 * 1000)
    (h2 : p.t < m.t) :
    mergeSeries (p :: ps) (m :: ms) = ⟨p.t, some p.price, none⟩ :: mergeSeries ps (m :: ms) := by
  simp only [mergeSeries]
  rw [if_neg h1, if_pos h2]

theorem mergeSeries_cons_mvrvEarlier (p : PricePoint) (ps : List PricePoint)
    (m : MvrvPoint) (ms : List MvrvPoint) (h1 : ¬ |p.t - m.t| ≤ 12 * 60 * 60 * 1000)
    (h2 : m.t < p.t) :
    mergeSeries (p :: ps) (m :: ms) = ⟨m.t, none, some m.mvrv⟩ :: mergeSeries (p :: ps) ms := by
  simp only [mergeSeries]
  rw [if_neg h1, if_neg (not_lt.mpr h2.le)]

/-- Every timestamp in the merger's output is the timestamp of some input
point. -/
theorem mergeSeries_t_mem (pa : List PricePoint) (ma : List MvrvPoint) :
    ∀ q ∈ mergeSeries pa ma,
      q.t ∈ pa.map (fun p => p.t) ∨ q.t ∈ ma.map (fun m => m.t) := by
  induction pa, ma using mergeSeries.induct with
  | case1 => simp [mergeSeries_nil_nil]
  | case2 p ps ih =>
    intro q hq
    rw [mergeSeries_cons_nil] at hq
    rcases List.mem_cons.mp hq with h | h
    · subst h; simp
    · rcases ih q h with h' | h'
      · rcases List.mem_map.mp h' with ⟨p', hp', ht⟩
        exact Or.inl (List.mem_map.mpr ⟨p', List.mem_cons_of_mem _ hp', ht⟩)
      · simp at h'
  | case3 m ms ih =>
    intro q hq
    rw [mergeSeries_nil_cons] at hq
    rcases List.mem_cons.mp hq with h | h
    · subst h; simp
    · rcases ih q h with h' | h'
      · simp at h'
      · rcases List.mem_map.mp h' with ⟨m', hm', ht⟩
        exact Or.inr (List.mem_map.mpr ⟨m', List.mem_cons_of_mem _ hm', ht⟩)
  | case4 p ps m ms hcond ih =>
    intro q hq
    rw [mergeSeries_cons_within p ps m ms hcond] at hq
    rcases List.mem_cons.mp hq with h | h
    · subst h; simp
    · rcases ih q h with h' | h'
      · rcases List.mem_map.mp h' with ⟨p', hp', ht⟩
        exact Or.inl (List.mem_map.mpr ⟨p', List.mem_cons_of_mem _ hp', ht⟩)
      · rcases List.mem_map.mp h' with ⟨m', hm', ht⟩
        exact Or.inr (List.mem_map.mpr ⟨m', List.mem_cons_of_mem _ hm', ht⟩)
  | case5 p ps m ms hcond hlt ih =>
    intro q hq
    rw [mergeSeries_cons_priceEarlier p ps m ms hcond hlt] at hq
    rcases List.mem_cons.mp hq with h | h
    · subst h; simp
    · rcases ih q h with h' | h'
      · rcases List.mem_map.mp h' with ⟨p', hp', ht⟩
        exact Or.inl (List.mem_map.mpr ⟨p', List.mem_cons_of_mem _ hp', ht⟩)
      · exact Or.inr h'
  | case6 p ps m ms hcond hnlt ih =>
    have h2 : m.t < p.t := by
      rw [abs_le] at hcond
      omega
    intro q hq
    rw [mergeSeries_cons_mvrvEarlier p ps m ms hcond h2] at hq
    rcases List.mem_cons.mp hq with h | h
    · subst h; simp
    · rcases ih q h with h' | h'
      · exact Or.inl h'
      · rcases List.mem_map.mp h' with ⟨m', hm', ht⟩
        exact Or.inr (List.mem_map.mpr ⟨m', List.mem_cons_of_mem _ hm', ht⟩)

/-- C1: for every pair of input sequences the Time-Series Merger follows
the specified two-pointer walk: it returns the empty output exactly when both
inputs are exhausted; when only one sequence has remaining elements it is
drained one point per output element with the other field absent; when both
heads exist and their timestamps differ by at most 12 hours (43200000 ms) one
merged point carrying both values is emitted and both pointers advance;
otherwise the point with the strictly earlier head timestamp is emitted alone
(the other field absent) and only that pointer advances.  (The claim's
ascending-input precondition is not needed: the walk equations hold for all
inputs.) -/
theorem mergeSeries_follows_spec_walk :
    (∀ (pa : List PricePoint) (ma : List MvrvPoint), mergeSeries pa ma = [] ↔ pa = [] ∧ ma = []) ∧
    (∀ p ps, mergeSeries (p :: ps) [] = ⟨p.t, some p.price, none⟩ :: mergeSeries ps []) ∧
    (∀ m ms, mergeSeries [] (m :: ms) = ⟨m.t, none, some m.mvrv⟩ :: mergeSeries [] ms) ∧
    (∀ p ps m ms, |p.t - m.t| ≤ 12 * 60 * 60 * 1000 →
      ∃ t, mergeSeries (p :: ps) (m :: ms) = ⟨t, some p.price, some m.mvrv⟩ :: mergeSeries ps ms) ∧
    (∀ p ps m ms, ¬ |p.t - m.t| ≤ 12 * 60 * 60 * 1000 → p.t < m.t →
      mergeSeries (p :: ps) (m :: ms) = ⟨p.t, some p.price, none⟩ :: mergeSeries ps (m :: ms)) ∧
    (∀ p ps m ms, ¬ |p.t - m.t| ≤ 12 * 60 * 60 * 1000 → m.t < p.t →
      mergeSeries (p :: ps) (m :: ms) = ⟨m.t, none, some m.mvrv⟩ :: mergeSeries (p :: ps) ms) := by
  refine ⟨?_, mergeSeries_cons_nil, mergeSeries_nil_cons,
    fun p ps m ms h => ⟨p.t, mergeSeries_cons_within p ps m ms h⟩,
    mergeSeries_cons_priceEarlier, mergeSeries_cons_mvrvEarlier⟩
  intro pa ma
  match pa, ma with
  | [], [] => simp [mergeSeries_nil_nil]
  | p :: ps, [] => simp [mergeSeries_cons_nil]
  | [], m :: ms => simp [mergeSeries_nil_cons]
  | p :: ps, m :: ms =>
    by_cases h1 : |p.t - m.t| ≤ 12 * 60 * 60 * 1000
    · simp [mergeSeries_cons_within p ps m ms h1]
    · by_cases h2 : p.t < m.t
      · simp [mergeSeries_cons_priceEarlier p ps m ms h1 h2]
      · have h3 : m.t < p.t := by rw [abs_le] at h1; omega
        simp [mergeSeries_cons_mvrvEarlier p ps m ms h1 h3]

/-- Witness for C1: a concrete within-window step (|0 - 100| ≤ 43200000). -/
theorem mergeSeries_follows_spec_walk_witness :
    ∃ t, mergeSeries [⟨0, 1⟩] [⟨100, 2⟩] = ⟨t, some 1, some 2⟩ :: mergeSeries [] [] :=
  mergeSeries_follows_spec_walk.2.2.2.1 ⟨0, 1⟩ [] ⟨100, 2⟩ [] (by decide)

/-- C10: when the merger emits a merged point for two heads within the
12-hour window, the emitted timestamp is exactly the price-series head's
timestamp `p.t` (not the mvrv head's timestamp nor any combination). -/
theorem mergeSeries_merged_point_timestamp (p : PricePoint) (ps : List PricePoint)
    (m : MvrvPoint) (ms : List MvrvPoint) (h : |p.t - m.t| ≤ 12 * 60 * 60 * 1000) :
    mergeSeries (p :: ps) (m :: ms) = ⟨p.t, some p.price, some m.mvrv⟩ :: mergeSeries ps ms :=
  mergeSeries_cons_within p ps m ms h

/-- Witness for C10 at heads with distinct timestamps (5 and 200): the merged
point carries the price head's timestamp 5, not 200. -/
theorem mergeSeries_merged_point_timestamp_witness :
    mergeSeries [⟨5, 7⟩] [⟨200, 9⟩] = ⟨5, some 7, some 9⟩ :: mergeSeries [] [] :=
  mergeSeries_merged_point_timestamp ⟨5, 7⟩ [] ⟨200, 9⟩ [] (by decide)

/-- C2 counterexample: both inputs are strictly ascending by timestamp,
yet the merger's output timestamps are not ascending (43200000 is followed by
1000): the first step merges price head 43200000 with mvrv head 0 (exactly 12
hours apart) and emits timestamp 43200000, after which the remaining mvrv
point 1000 is drained behind it. -/
theorem mergeSeries_ascending_counterexample :
    List.Pairwise (fun a b : PricePoint => a.t < b.t) [⟨43200000, 1⟩] ∧
    List.Pairwise (fun a b : MvrvPoint => a.t < b.t) [⟨0, 2⟩, ⟨1000, 3⟩] ∧
    ¬ List.Pairwise (fun a b : Int => a ≤ b)
        ((mergeSeries [⟨43200000, 1⟩] [⟨0, 2⟩, ⟨1000, 3⟩]).map (fun q => q.t)) := by
  have h : mergeSeries [⟨43200000, 1⟩] [⟨0, 2⟩, ⟨1000, 3⟩] =
      [⟨43200000, some 1, some 2⟩, ⟨1000, none, some 3⟩] := by
    rw [mergeSeries_cons_within _ _ _ _ (by decide), mergeSeries_nil_cons, mergeSeries_nil_nil]
  refine ⟨by decide, by decide, ?_⟩
  rw [h]
  decide

/-- C2 (amended: the inputs must not only be ascending, their consecutive
timestamps must differ by more than the 12-hour merge window — as is the case
for the daily series the dashboard feeds in): the merger's output timestamps
are then strictly ascending. -/
theorem mergeSeries_output_ascending (pa : List PricePoint) (ma : List MvrvPoint)
    (hpa : List.Pairwise (fun a b : PricePoint => a.t + 12 * 60 * 60 * 1000 < b.t) pa)
    (hma : List.Pairwise (fun a b : MvrvPoint => a.t + 12 * 60 * 60 * 1000 < b.t) ma) :
    List.Pairwise (fun a b : Int => a < b) ((mergeSeries pa ma).map (fun q => q.t)) := by
  rw [List.pairwise_map]
  induction pa, ma using mergeSeries.induct with
  | case1 => rw [mergeSeries_nil_nil]; exact List.Pairwise.nil
  | case2 p ps ih =>
    rw [mergeSeries_cons_nil]
    rcases List.pairwise_cons.mp hpa with ⟨hhead, htail⟩
    refine List.pairwise_cons.mpr ⟨?_, ih htail hma⟩
    intro q hq
    rcases mergeSeries_t_mem ps [] q hq with h | h
    · rcases List.mem_map.mp h with ⟨p', hp', ht⟩
      have := hhead p' hp'
      simp only []
      omega
    · simp at h
  | case3 m ms ih =>
    rw [mergeSeries_nil_cons]
    rcases List.pairwise_cons.mp hma with ⟨hhead, htail⟩
    refine List.pairwise_cons.mpr ⟨?_, ih hpa htail⟩
    intro q hq
    rcases mergeSeries_t_mem [] ms q hq with h | h
    · simp at h
    · rcases List.mem_map.mp h with ⟨m', hm', ht⟩
      have := hhead m' hm'
      simp only []
      omega
  | case4 p ps m ms hcond ih =>
    rw [mergeSeries_cons_within p ps m ms hcond]
    rcases List.pairwise_cons.mp hpa with ⟨hph, hpt⟩
    rcases List.pairwise_cons.mp hma with ⟨hmh, hmt⟩
    refine List.pairwise_cons.mpr ⟨?_, ih hpt hmt⟩
    intro q hq
    rw [abs_le] at hcond
    rcases mergeSeries_t_mem ps ms q hq with h | h
    · rcases List.mem_map.mp h with ⟨p', hp', ht⟩
      have := hph p' hp'
      simp only []
      omega
    · rcases List.mem_map.mp h with ⟨m', hm', ht⟩
      have := hmh m' hm'
      simp only []
      omega
  | case5 p ps m ms hcond hlt ih =>
    rw [mergeSeries_cons_priceEarlier p ps m ms hcond hlt]
    rcases List.pairwise_cons.mp hpa with ⟨hph, hpt⟩
    refine List.pairwise_cons.mpr ⟨?_, ih hpt hma⟩
    intro q hq
    rcases mergeSeries_t_mem ps (m :: ms) q hq with h | h
    · rcases List.mem_map.mp h with ⟨p', hp', ht⟩
      have := hph p' hp'
      simp only []
      omega
    · rcases List.mem_map.mp h with ⟨m', hm', ht⟩
      rcases List.mem_cons.mp hm' with rfl | hm''
      · simp only []
        omega
      · have := (List.pairwise_cons.mp hma).1 m' hm''
        simp only []
        omega
  | case6 p ps m ms hcond hnlt ih =>
    have h2 : m.t < p.t := by rw [abs_le] at hcond; omega
    rw [mergeSeries_cons_mvrvEarlier p ps m ms hcond h2]
    rcases List.pairwise_cons.mp hma with ⟨hmh, hmt⟩
    refine List.pairwise_cons.mpr ⟨?_, ih hpa hmt⟩
    intro q hq
    rcases mergeSeries_t_mem (p :: ps) ms q hq with h | h
    · rcases List.mem_map.mp h with ⟨p', hp', ht⟩
      rcases List.mem_cons.mp hp' with rfl | hp''
      · simp only []
        omega
      · have := (List.pairwise_cons.mp hpa).1 p' hp''
        simp only []
        omega
    · rcases List.mem_map.mp h with ⟨m', hm', ht⟩
      have := hmh m' hm'
      simp only []
      omega

/-- Witness for the amended C2 on a concrete gapped pair of series. -/
theorem mergeSeries_output_ascending_witness :
    List.Pairwise (fun a b : Int => a < b)
      ((mergeSeries [⟨0, 1⟩, ⟨86400000, 2⟩] [⟨1000, 5⟩]).map (fun q => q.t)) :=
  mergeSeries_output_ascending _ _ (by decide) (by decide)

/-- C5: the Search Filter returns exactly the subsequence of input posts
satisfying the match predicate, stable (a sublist of the input, hence original
relative order, no reordering, no duplication beyond the input's own), and the
empty query returns the full input unchanged. -/
theorem searchPosts_exact_subsequence (posts : List Post) (q : String)
    (cm : String → Option String) :
    (q = "" → searchPosts posts q cm = posts) ∧
    (searchPosts posts q cm).Sublist posts ∧
    (q ≠ "" → searchPosts posts q cm = posts.filter (matchesPost (strToLower q) cm)) ∧
    (∀ p, q ≠ "" →
      (p ∈ searchPosts posts q cm ↔ p ∈ posts ∧ matchesPost (strToLower q) cm p = true)) ∧
    (∀ p, q ≠ "" → (searchPosts posts q cm).count p =
      (if matchesPost (strToLower q) cm p then posts.count p else 0)) := by
  by_cases hq : q = ""
  · subst hq
    exact ⟨fun _ => by simp [searchPosts], by simp [searchPosts], fun h => absurd rfl h,
      fun p h => absurd rfl h, fun p h => absurd rfl h⟩
  · have he : searchPosts posts q cm = posts.filter (matchesPost (strToLower q) cm) := by
      simp [searchPosts, hq]
    refine ⟨fun h => absurd h hq, ?_, fun _ => he, fun p _ => ?_, fun p _ => ?_⟩
    · rw [he]; exact List.filter_sublist posts
    · rw [he, List.mem_filter]
    · rw [he]
      by_cases hm : matchesPost (strToLower q) cm p = true
      · rw [if_pos hm]
        exact List.count_filter hm
      · rw [if_neg hm, List.count_eq_zero]
        intro hmem
        exact hm (List.mem_filter.mp hmem).2

/-- Witness for C5: the empty query returns the input collection unchanged. -/
theorem searchPosts_exact_subsequence_witness :
    searchPosts [⟨"s", "T", none, none⟩] "" (fun _ => none) = [⟨"s", "T", none, none⟩] :=
  (searchPosts_exact_subsequence [⟨"s", "T", none, none⟩] "" (fun _ => none)).1 rfl

/-- C6: for a non-empty query, a post whose title, excerpt and tags do not
contain the lowercased query is included iff the content map holds a body for
the post's slug whose lowercased text contains the lowercased query (an absent
body never matches via content); conjoined with the claim's concrete instance:
a post with loaded body "mvrv details" is included for query "mvrv" when the
body is in the content map and excluded when it is absent. -/
theorem searchPosts_content_only_match :
    (∀ (posts : List Post) (q : String) (cm : String → Option String) (p : Post),
      q ≠ "" → p ∈ posts →
      strIncludes (strToLower p.title) (strToLower q) = false →
      strIncludes (strToLower (p.excerpt.getD "")) (strToLower q) = false →
      (∀ ts, p.tags = some ts → ∀ t ∈ ts, strIncludes (strToLower t) (strToLower q) = false) →
      (p ∈ searchPosts posts q cm ↔
        ∃ body, cm p.slug = some body ∧ strIncludes (strToLower body) (strToLower q) = true)) ∧
    (⟨"p1", "A Post", none, none⟩ : Post) ∈
      searchPosts [⟨"p1", "A Post", none, none⟩] "mvrv"
        (fun s => if s = "p1" then some "mvrv details" else none) ∧
    (⟨"p1", "A Post", none, none⟩ : Post) ∉
      searchPosts [⟨"p1", "A Post", none, none⟩] "mvrv" (fun _ => none) := by
  refine ⟨?_, by decide, by decide⟩
  intro posts q cm p hq hp ht he htags
  have hfil : searchPosts posts q cm = posts.filter (matchesPost (strToLower q) cm) := by
    simp [searchPosts, hq]
  have hqd : (strToLower q).data ≠ [] := by
    cases q with
    | mk d =>
      intro h0
      apply hq
      simp only [strToLower] at h0
      have hd : d = [] := List.map_eq_nil_iff.mp h0
      rw [hd]
  have hmatch : matchesPost (strToLower q) cm p =
      strIncludes (strToLower ((cm p.slug).getD "")) (strToLower q) := by
    simp only [matchesPost, ht, he]
    have htag0 : (match p.tags with
        | some ts => ts.any fun t => strIncludes (strToLower t) (strToLower q)
        | none => false) = false := by
      cases hts : p.tags with
      | none => rfl
      | some ts =>
        exact List.any_eq_false.mpr fun t htl => by rw [htags ts hts t htl]; simp
    rw [htag0]
    simp
  rw [hfil, List.mem_filter, hmatch]
  constructor
  · rintro ⟨-, hm⟩
    cases hc : cm p.slug with
    | none =>
      exfalso
      rw [hc] at hm
      obtain ⟨c, cs, hcs⟩ : ∃ c cs, (strToLower q).data = c :: cs := by
        cases hd : (strToLower q).data with
        | nil => exact absurd hd hqd
        | cons c cs => exact ⟨c, cs, rfl⟩
      rw [strIncludes, hcs] at hm
      simp [strToLower, containsSub] at hm
    | some body =>
      rw [hc] at hm
      exact ⟨body, rfl, hm⟩
  · rintro ⟨body, hc, hbody⟩
    rw [hc]
    exact ⟨hp, hbody⟩

/-- Witness for C6: a post whose other fields do not contain "kpi" but whose
loaded body does. -/
theorem searchPosts_content_only_match_witness :
    (⟨"p2", "B", none, none⟩ : Post) ∈
        searchPosts [⟨"p2", "B", none, none⟩] "kpi" (fun _ => some "kpi notes") ↔
      ∃ body, (fun _ : String => some "kpi notes") "p2" = some body ∧
        strIncludes (strToLower body) (strToLower "kpi") = true :=
  searchPosts_content_only_match.1 _ "kpi" _ _ (by decide) (by decide) (by decide) (by decide)
    (fun ts hts => by simp at hts)

/-! Value domain calculator: helper lemmas. -/

theorem scanMinMax_all_none (l : List DomainPoint) (h : ∀ p ∈ l, p.mvrv = none) :
    ∀ a b, scanMinMax l a b = (a, b) := by
  induction l with
  | nil => intro a b; rfl
  | cons p rest ih =>
    intro a b
    have hp : p.mvrv = none := h p (List.mem_cons_self p rest)
    rw [scanMinMax, hp]
    exact ih (fun x hx => h x (List.mem_cons_of_mem p hx)) a b

theorem scanMinMax_some_some (l : List DomainPoint) :
    ∀ a b : ℚ, a ≤ b →
      ∃ a' b', scanMinMax l (some a) (some b) = (some a', some b') ∧ a' ≤ b' ∧ b ≤ b' ∧
        ∀ p ∈ l, ∀ x, p.mvrv = some x → x ≤ b' := by
  induction l with
  | nil =>
    intro a b hab
    exact ⟨a, b, rfl, hab, le_refl b, by simp⟩
  | cons p rest ih =>
    intro a b hab
    cases hp : p.mvrv with
    | none =>
      obtain ⟨a', b', hrec, h1, h2, h3⟩ := ih a b hab
      rw [scanMinMax, hp]
      refine ⟨a', b', hrec, h1, h2, ?_⟩
      intro r hr x hx
      rcases List.mem_cons.mp hr with rfl | hr'
      · rw [hp] at hx; exact absurd hx (by simp)
      · exact h3 r hr' x hx
    | some x =>
      have hab' : (if x < a then x else a) ≤ (if x > b then x else b) := by
        split <;> split <;> linarith
      obtain ⟨a', b', hrec, h1, h2, h3⟩ := ih _ _ hab'
      rw [scanMinMax, hp]
      refine ⟨a', b', hrec, h1, ?_, ?_⟩
      · have : b ≤ (if x > b then x else b) := by split <;> linarith
        exact le_trans this h2
      · intro r hr y hy
        rcases List.mem_cons.mp hr with rfl | hr'
        · rw [hp] at hy
          have hxy : y = x := by injection hy with h0; exact h0.symm
          subst hxy
          have : y ≤ (if y > b then y else b) := by split <;> linarith
          exact le_trans this h2
        · exact h3 r hr' y hy

theorem scanMinMax_some_of_mem (l : List DomainPoint) (p0 : DomainPoint) (hp : p0 ∈ l)
    (v : ℚ) (hv : p0.mvrv = some v) :
    ∃ mn mx, scanMinMax l none none = (some mn, some mx) ∧ mn ≤ mx ∧ v ≤ mx := by
  induction l with
  | nil => exact absurd hp (List.not_mem_nil p0)
  | cons q rest ih =>
    cases hq : q.mvrv with
    | some x =>
      rw [scanMinMax, hq]
      obtain ⟨a', b', hrec, h1, h2, h3⟩ := scanMinMax_some_some rest x x (le_refl x)
      refine ⟨a', b', hrec, h1, ?_⟩
      rcases List.mem_cons.mp hp with rfl | hp'
      · rw [hq] at hv
        obtain rfl : x = v := by injection hv
        exact h2
      · exact h3 p0 hp' v hv
    | none =>
      rw [scanMinMax, hq]
      rcases List.mem_cons.mp hp with rfl | hp'
      · rw [hq] at hv; exact absurd hv (by simp)
      · exact ih hp'

/-- C3 counterexample: for the all-negative sequence `[{mvrv: -1}]` the
calculator returns `[0, -0.9]` — the lower bound is clamped at 0 while the
padded upper bound stays negative — so `lo ≤ hi` fails, refuting the claim
for sequences containing negative values. -/
theorem computeMvrvDomain_counterexample :
    ¬ ((computeMvrvDomain [⟨some (-1)⟩]).1 ≤ (computeMvrvDomain [⟨some (-1)⟩]).2) := by
  have h : computeMvrvDomain [⟨some (-1)⟩] = (0, -9/10) := by
    norm_num [computeMvrvDomain, scanMinMax]
    rw [show ⌈(-(19/2) : ℚ)⌉ = -9 by rw [Int.ceil_eq_iff]; norm_num]
    norm_num
  rw [h]
  norm_num

/-- C3 (amended: restricted to input sequences that are empty, contain no
numeric value, or contain at least one nonnegative numeric value; an
all-negative sequence violates the invariant because the lower bound is
clamped at 0 while the upper bound is not): the two-element result [lo, hi]
satisfies lo ≤ hi. -/
theorem computeMvrvDomain_lo_le_hi (arr : List DomainPoint)
    (h : arr = [] ∨ (∀ p ∈ arr, p.mvrv = none) ∨ ∃ p ∈ arr, ∃ v, p.mvrv = some v ∧ 0 ≤ v) :
    (computeMvrvDomain arr).1 ≤ (computeMvrvDomain arr).2 := by
  rcases h with rfl | hnone | ⟨p0, hp0, v, hv, hv0⟩
  · norm_num [computeMvrvDomain]
  · by_cases harr : arr = []
    · subst harr; norm_num [computeMvrvDomain]
    · simp only [computeMvrvDomain, if_neg harr, scanMinMax_all_none arr hnone]
      norm_num
  · have harr : arr ≠ [] := fun h0 => by subst h0; exact List.not_mem_nil p0 hp0
    obtain ⟨mn, mx, hscan, hmnmx, hvmx⟩ := scanMinMax_some_of_mem arr p0 hp0 v hv
    have hmx0 : (0:ℚ) ≤ mx := le_trans hv0 hvmx
    simp only [computeMvrvDomain, if_neg harr, hscan]
    set pad := max (0.05 : ℚ) ((mx - mn) * 0.1) with hpaddef
    have hpadpos : (0:ℚ) < pad := lt_of_lt_of_le (by norm_num) (le_max_left _ _)
    have hhi : mx + pad ≤ (⌈(mx + pad) * 10⌉ : ℚ) / 10 := by
      rw [le_div_iff₀ (by norm_num : (0:ℚ) < 10)]
      exact Int.le_ceil ((mx + pad) * 10)
    have hhi0 : (0:ℚ) ≤ (⌈(mx + pad) * 10⌉ : ℚ) / 10 := le_trans (by linarith) hhi
    have hlo : ((⌊(mn - pad) * 10⌋ : ℚ) / 10) ≤ (⌈(mx + pad) * 10⌉ : ℚ) / 10 := by
      have h1 : ((⌊(mn - pad) * 10⌋ : ℚ) / 10) ≤ mn - pad := by
        rw [div_le_iff₀ (by norm_num : (0:ℚ) < 10)]
        exact Int.floor_le ((mn - pad) * 10)
      linarith
    exact max_le hhi0 hlo

/-- Witness for the amended C3 on a one-point series with value 2. -/
theorem computeMvrvDomain_lo_le_hi_witness :
    (computeMvrvDomain [⟨some 2⟩]).1 ≤ (computeMvrvDomain [⟨some 2⟩]).2 :=
  computeMvrvDomain_lo_le_hi [⟨some 2⟩]
    (Or.inr (Or.inr ⟨⟨some 2⟩, List.mem_singleton_self _, 2, rfl, by norm_num⟩))

/-- C4 counterexample: at MVRV = 2.6, sentiment = 50 the engine emits
exactly one MEDIUM alert as claimed, but its title is "MVRV Elevated", not
"Elevated" (and likewise the ≥ 3.0 alert is titled "MVRV Overbought", not
"Overbought"). -/
theorem buildAlerts_title_counterexample :
    buildAlerts ⟨some 2.6, some 50⟩ = [⟨.MEDIUM, "MVRV Elevated"⟩] ∧
    ∀ a ∈ buildAlerts ⟨some 2.6, some 50⟩, a.title ≠ "Elevated" := by
  have h : buildAlerts ⟨some 2.6, some 50⟩ = [⟨.MEDIUM, "MVRV Elevated"⟩] := by
    norm_num [buildAlerts]
  refine ⟨h, ?_⟩
  rw [h]
  intro a ha
  rcases List.mem_singleton.mp ha with rfl
  decide

/-- C4 (amended: the alert titles carried by the code are
"MVRV Overbought", "MVRV Elevated" and "Extreme Greed"): the Alert Rule
Engine is a pure function of the MVRV and sentiment values; with MVRV known
it emits the HIGH overbought alert iff MVRV ≥ 3.0 and the MEDIUM elevated
alert iff 2.5 ≤ MVRV < 3.0 (so at most one MVRV-tier alert); with sentiment
known ≥ 70 it additionally emits the MEDIUM "Extreme Greed" alert; unknown
inputs produce no alert for that signal; and on the three concrete snapshots:
(3.1, 80) gives exactly the HIGH overbought and MEDIUM greed alerts,
(2.6, 50) exactly the MEDIUM elevated alert, (1.0, 20) no alert. -/
theorem buildAlerts_rules :
    (∀ (mv : ℚ) fng, Alert.mk .HIGH "MVRV Overbought" ∈ buildAlerts ⟨some mv, fng⟩ ↔ mv ≥ 3.0) ∧
    (∀ (mv : ℚ) fng, Alert.mk .MEDIUM "MVRV Elevated" ∈ buildAlerts ⟨some mv, fng⟩ ↔
      mv ≥ 2.5 ∧ ¬ mv ≥ 3.0) ∧
    (∀ st, ((buildAlerts st).countP
      (fun a => a.title == "MVRV Overbought" || a.title == "MVRV Elevated")) ≤ 1) ∧
    (∀ mvc (fg : ℚ), Alert.mk .MEDIUM "Extreme Greed" ∈ buildAlerts ⟨mvc, some fg⟩ ↔ fg ≥ 70) ∧
    (∀ fng a, a ∈ buildAlerts ⟨none, fng⟩ → a = Alert.mk .MEDIUM "Extreme Greed") ∧
    (∀ mvc, Alert.mk .MEDIUM "Extreme Greed" ∉ buildAlerts ⟨mvc, none⟩) ∧
    buildAlerts ⟨some 3.1, some 80⟩ =
      [⟨.HIGH, "MVRV Overbought"⟩, ⟨.MEDIUM, "Extreme Greed"⟩] ∧
    buildAlerts ⟨some 2.6, some 50⟩ = [⟨.MEDIUM, "MVRV Elevated"⟩] ∧
    buildAlerts ⟨some 1.0, some 20⟩ = [] := by
  refine ⟨?_, ?_, ?_, ?_, ?_, ?_, by norm_num [buildAlerts], by norm_num [buildAlerts],
    by norm_num [buildAlerts]⟩
  · intro mv fng
    cases fng with
    | none => simp only [buildAlerts]; split_ifs <;> simp_all
    | some fg => simp only [buildAlerts]; split_ifs <;> simp_all
  · intro mv fng
    cases fng with
    | none => simp only [buildAlerts]; split_ifs <;> simp_all
    | some fg => simp only [buildAlerts]; split_ifs <;> simp_all
  · intro st
    obtain ⟨mvc, fng⟩ := st
    cases mvc <;> cases fng <;> simp only [buildAlerts] <;>
      ((try split_ifs) <;> simp [List.countP_cons])
  · intro mvc fg
    cases mvc with
    | none => simp only [buildAlerts]; split_ifs <;> simp_all
    | some mv => simp only [buildAlerts]; split_ifs <;> simp_all
  · intro fng a ha
    cases fng with
    | none => simp [buildAlerts] at ha
    | some fg =>
      simp only [buildAlerts] at ha
      rcases List.mem_append.mp ha with h | h
      · simp at h
      · split_ifs at h <;> simp_all
  · intro mvc
    cases mvc with
    | none => simp [buildAlerts]
    | some mv => simp only [buildAlerts]; split_ifs <;> simp_all

/-- Witness for the amended C4: at MVRV = 3.5 the HIGH overbought alert is
present whatever the sentiment value. -/
theorem buildAlerts_rules_witness :
    Alert.mk .HIGH "MVRV Overbought" ∈ buildAlerts ⟨some 3.5, some 10⟩ :=
  (buildAlerts_rules.1 3.5 (some 10)).mpr (by norm_num)

/-! Axis tick generator: helper lemmas. -/

theorem ticksFrom_step (t lastT : Int) (h : t ≤ lastT + 1) :
    ticksFrom t lastT = t :: ticksFrom (t + tickStep) lastT := by
  conv_lhs => rw [ticksFrom]
  rw [if_pos h]

theorem ticksFrom_nil (t lastT : Int) (h : ¬ t ≤ lastT + 1) : ticksFrom t lastT = [] := by
  rw [ticksFrom, if_neg h]

theorem tickStep_pos : (0 : Int) < tickStep := by norm_num [tickStep, oneDayMs]

theorem ticksFrom_mem (t lastT : Int) :
    ∀ x, x ∈ ticksFrom t lastT ↔ ∃ k : ℕ, x = t + tickStep * k ∧ x ≤ lastT + 1 := by
  induction t, lastT using ticksFrom.induct with
  | case1 t lastT h ih =>
    intro x
    rw [ticksFrom_step t lastT h]
    constructor
    · intro hx
      rcases List.mem_cons.mp hx with rfl | hx'
      · exact ⟨0, by simp, h⟩
      · obtain ⟨k, hk, hk2⟩ := (ih x).mp hx'
        refine ⟨k + 1, ?_, hk2⟩
        rw [hk]
        push_cast
        ring
    · rintro ⟨k, rfl, hle⟩
      cases k with
      | zero =>
        simp only [Nat.cast_zero, mul_zero, add_zero]
        exact List.mem_cons_self _ _
      | succ k' =>
        refine List.mem_cons_of_mem _ ((ih _).mpr ⟨k', ?_, hle⟩)
        push_cast
        ring
  | case2 t lastT h =>
    intro x
    rw [ticksFrom_nil t lastT h]
    simp only [List.not_mem_nil, false_iff]
    rintro ⟨k, rfl, hle⟩
    have hk : (0:ℤ) ≤ tickStep * k := mul_nonneg tickStep_pos.le (Int.ofNat_nonneg k)
    linarith

theorem ticksFrom_pairwise (t lastT : Int) :
    List.Pairwise (fun a b : Int => a < b) (ticksFrom t lastT) := by
  induction t, lastT using ticksFrom.induct with
  | case1 t lastT h ih =>
    rw [ticksFrom_step t lastT h]
    refine List.pairwise_cons.mpr ⟨?_, ih⟩
    intro y hy
    obtain ⟨k, rfl, -⟩ := (ticksFrom_mem _ _ y).mp hy
    have hk : (0:ℤ) ≤ tickStep * k := mul_nonneg tickStep_pos.le (Int.ofNat_nonneg k)
    have := tickStep_pos
    linarith
  | case2 t lastT h =>
    rw [ticksFrom_nil t lastT h]
    exact List.Pairwise.nil

/-- C7 counterexample: for the (trivially time-ordered) one-point series
at t = -100, the aligned-down whole-day boundary is -86400000 — it divides
evenly into days, lies within one day below -100, and is ≤ last + 1 — so the
claimed progression contains it (in particular the claimed first tick is ≤
the first timestamp); but with JavaScript's sign-following `%` the code
aligns -100 toward zero (to 0) and its loop emits no tick at all. -/
theorem compute10DayTicks_counterexample :
    List.Pairwise (fun a b : PricePoint => a.t ≤ b.t) [⟨-100, 0⟩] ∧
    ((-86400000 : Int) ≤ -100 ∧ (-86400000 : Int) % oneDayMs = 0 ∧
      (-100 : Int) - -86400000 < oneDayMs ∧ (-86400000 : Int) ≤ -100 + 1) ∧
    compute10DayTicks [⟨-100, 0⟩] = [] := by
  refine ⟨by decide, by decide, ?_⟩
  simp only [compute10DayTicks, List.getLast]
  rw [ticksFrom]
  norm_num [oneDayMs]
  decide

/-- C7 (amended: restricted to series whose first timestamp is
nonnegative — for a negative start the source's `%` follows the dividend's
sign and aligns toward zero rather than down): for a non-empty time-ordered
series the Axis Tick Generator returns exactly the strictly ascending
arithmetic progression that starts at the first timestamp aligned down to the
whole-day boundary (hence first tick ≤ the first timestamp), advances by 10
days per tick, and contains every such tick that is ≤ last timestamp + 1 ms
and no others; for an empty series it returns the empty sequence. -/
theorem compute10DayTicks_progression :
    compute10DayTicks [] = [] ∧
    ∀ (s : PricePoint) (rest : List PricePoint),
      List.Pairwise (fun a b : PricePoint => a.t ≤ b.t) (s :: rest) →
      0 ≤ s.t →
      (∀ x, x ∈ compute10DayTicks (s :: rest) ↔
        ∃ k : ℕ, x = (s.t - s.t % oneDayMs) + tickStep * k ∧
          x ≤ ((s :: rest).getLast (List.cons_ne_nil s rest)).t + 1) ∧
      List.Pairwise (fun a b : Int => a < b) (compute10DayTicks (s :: rest)) ∧
      (s.t - s.t % oneDayMs) % oneDayMs = 0 ∧
      s.t - s.t % oneDayMs ≤ s.t ∧
      (s.t - s.t % oneDayMs) ∈ compute10DayTicks (s :: rest) := by
  refine ⟨rfl, ?_⟩
  intro s rest hsort h0
  have htm : Int.tmod s.t oneDayMs = s.t % oneDayMs :=
    Int.tmod_eq_emod h0 (by norm_num [oneDayMs])
  have hcomp : compute10DayTicks (s :: rest) =
      ticksFrom (s.t - s.t % oneDayMs) ((s :: rest).getLast (List.cons_ne_nil s rest)).t := by
    simp only [compute10DayTicks, htm]
  have hdecomp : s.t - s.t % oneDayMs = oneDayMs * (s.t / oneDayMs) := by
    have := Int.ediv_add_emod s.t oneDayMs
    linarith
  have hmod0 : (s.t - s.t % oneDayMs) % oneDayMs = 0 := by
    rw [hdecomp, Int.mul_emod_right]
  have hle : s.t - s.t % oneDayMs ≤ s.t := by
    have := Int.emod_nonneg s.t (show oneDayMs ≠ 0 by norm_num [oneDayMs])
    linarith
  have hlast : s.t ≤ ((s :: rest).getLast (List.cons_ne_nil s rest)).t := by
    have hmem := List.getLast_mem (List.cons_ne_nil s rest)
    rcases List.mem_cons.mp hmem with heq | hmem'
    · exact le_of_eq (congrArg PricePoint.t heq).symm
    · exact (List.pairwise_cons.mp hsort).1 _ hmem'
  refine ⟨?_, ?_, hmod0, hle, ?_⟩
  · intro x
    rw [hcomp]
    exact ticksFrom_mem _ _ x
  · rw [hcomp]
    exact ticksFrom_pairwise _ _
  · rw [hcomp, ticksFrom_step _ _ (by linarith)]
    exact List.mem_cons_self _ _

/-- Witness for the amended C7 on the one-point series at t = 0: the aligned
start itself is a tick of the output. -/
theorem compute10DayTicks_progression_witness :
    ((0:Int) - (0:Int) % oneDayMs) ∈ compute10DayTicks [⟨0, 1⟩] :=
  (compute10DayTicks_progression.2 ⟨0, 1⟩ [] (by decide) (by decide)).2.2.2.2

/-- C8: on the fixture input `"# Title\n\n**bold** and *italic*"` the
renderer's output contains a level-1 heading tag wrapping "Title", a bold tag
wrapping "bold" and an italic tag wrapping "italic"; that double-asterisk
bold is resolved before single-asterisk italics is behaviourally witnessed:
the asterisk pairs are consumed as one strong element (no empty `<em></em>`
from double-counted asterisks appears), and on `"**bold** and *italic*"` the
full output is exactly `"<strong>bold</strong> and <em>italic</em>"`. -/
theorem renderMarkdown_fixture :
    strIncludes (renderMarkdown "# Title\n\n**bold** and *italic*")
      "<h1 class=\"text-2xl font-bold mt-8 mb-4\">Title</h1>" = true ∧
    strIncludes (renderMarkdown "# Title\n\n**bold** and *italic*") "<strong>bold</strong>" = true ∧
    strIncludes (renderMarkdown "# Title\n\n**bold** and *italic*") "<em>italic</em>" = true ∧
    strIncludes (renderMarkdown "# Title\n\n**bold** and *italic*") "<em></em>" = false ∧
    renderMarkdown "**bold** and *italic*" = "<strong>bold</strong> and <em>italic</em>" := by
  decide

/-- C9: each of the six core functions is a total function over its
embedded input domain (every Lean definition here is total) and degrades to
its documented default on empty or malformed input: the empty query returns
the full collection unchanged, the renderer maps empty text to empty output,
the merger and the tick generator map empty series to empty sequences, the
domain calculator returns the fixed default [0, 4] on an empty series or one
with no numeric value, and the alert engine emits no alert on unknown
inputs. -/
theorem core_functions_total_defaults :
    (∀ posts contentMap, searchPosts posts "" contentMap = posts) ∧
    renderMarkdown "" = "" ∧
    mergeSeries [] [] = [] ∧
    compute10DayTicks [] = [] ∧
    computeMvrvDomain [] = (0, 4) ∧
    (∀ arr, (∀ p ∈ arr, p.mvrv = none) → computeMvrvDomain arr = (0, 4)) ∧
    buildAlerts ⟨none, none⟩ = [] := by
  refine ⟨fun posts cm => by simp [searchPosts], by decide, mergeSeries_nil_nil, rfl,
    by norm_num [computeMvrvDomain], ?_, rfl⟩
  intro arr hnone
  by_cases harr : arr = []
  · subst harr
    norm_num [computeMvrvDomain]
  · simp only [computeMvrvDomain, if_neg harr, scanMinMax_all_none arr hnone]

/-- Witness for C9: a series whose single element has a non-numeric `mvrv`
field yields the default domain. -/
theorem core_functions_total_defaults_witness :
    computeMvrvDomain [⟨none⟩] = (0, 4) :=
  core_functions_total_defaults.2.2.2.2.2.1 [⟨none⟩] (by simp)
